import Mathlib

/-!
Verification development for the validator node's peer-to-peer scoring and
agreement subsystem.  The Go source is shallowly embedded:

* floating-point (`float64`) score arithmetic is idealised as exact `ℚ`
  (for the consensus layers) and `ℝ` (for the score calculator, which uses
  square roots);
* Go maps are modelled as association lists; where Go iterates a map in a
  randomised order, the embedding takes the iteration order as an explicit
  list, i.e. every theorem about the embedded function is a theorem about
  one admissible iteration order, and order-dependence is made visible by
  quantifying over (or varying) that order;
* code that can panic (out-of-range indexing) is embedded with `Option`,
  `none` marking the panic;
* network sends are returned as effect lists (the ids of the peers dialled)
  instead of being performed.
-/

set_option maxHeartbeats 1000000

/-! ## Tolerance-quorum prototype (`test_farm_score.go`, package main)

`Validator.CheckConsensus` groups the vote set into tolerance classes and
decides the mean of the largest class.  The embedding takes the assembled
vote set as an ordered association list `scores : List (String × ℚ)` (the
iteration order of the Go map `scores`); classes are kept in creation
order together with their reference score (`scores[members[0]]`, which is
fixed once the class is created because `members[0]` is never changed and
the `scores` map is not mutated during grouping). -/

namespace Proto

/-- Grouping criterion from `test_farm_score.go` line 124:
`diff := math.Abs(score - referenceScore) / referenceScore; diff <= 0.01`.
Note the denominator is the signed reference score, not its absolute value. -/
def joins (score referenceScore : ℚ) : Prop :=
  |score - referenceScore| / referenceScore ≤ 1/100

instance (s r : ℚ) : Decidable (joins s r) := by unfold joins; infer_instance

/-- Place one validator's score into the first matching class (classes kept
as (reference score, members) in creation order), or open a new class. -/
def assign (gs : List (ℚ × List String)) (vid : String) (score : ℚ) :
    List (ℚ × List String) :=
  match gs with
  | [] => [(score, [vid])]
  | (ref, members) :: rest =>
    if joins score ref then (ref, members ++ [vid]) :: rest
    else (ref, members) :: assign rest vid score

/-- The grouping loop of `Validator.CheckConsensus` (lines 113-140). -/
def groups (scores : List (String × ℚ)) : List (ℚ × List String) :=
  scores.foldl (fun acc p => assign acc p.1 p.2) []

/-- Association-list lookup modelling the Go map access `scores[vid]`. -/
def lookupScore : List (String × ℚ) → String → ℚ
  | [], _ => 0
  | p :: rest, vid => if p.1 = vid then p.2 else lookupScore rest vid

/-- Function `Validator.CheckConsensus` (tolerance quorum): needs at least 2 votes,
groups them, finds the largest class (strict-greater scan, so the first
class of maximal size in creation order wins), and decides the mean of the
largest class when its size reaches `ceil(total * 2 / 3)`. -/
def CheckConsensus (scores : List (String × ℚ)) : Bool × ℚ :=
  if scores.length < 2 then (false, 0)
  else
    let gs := groups scores
    let largest := gs.foldl (fun acc g => if g.2.length > acc.2.length then g else acc)
      ((0 : ℚ), ([] : List String))
    let minRequiredSize := Nat.ceil ((scores.length : ℚ) * 2 / 3)
    if largest.2.length ≥ minRequiredSize then
      let sum := (largest.2.map (lookupScore scores)).foldl (fun a b => a + b) 0
      (true, sum / (largest.2.length : ℚ))
    else (false, 0)

end Proto

/-! ## Agreement engine (`internal/consensus/engine.go`)

Per-request state of `Engine`: `consensusResults[requestID]` maps a
participant to its latest submitted result (last write overwrites), and
`resultCounts[requestID]` maps a result key to a running count that is
only ever incremented.  `[]byte` results are modelled as `String`.
The per-request maps are modelled as association lists in insertion
order; a request that was never submitted to has both lists empty, which
makes `CheckConsensus` return `(false, none)` exactly as the Go
`!ok` / `totalParticipants == 0` checks do. -/

namespace Consensus

structure ReqState where
  consensusResults : List (String × String)
  resultCounts : List (String × Nat)
deriving DecidableEq

/-- Overwrite-or-insert for the participant → result map. -/
def upsertResult : List (String × String) → String → String → List (String × String)
  | [], pid, r => [(pid, r)]
  | p :: rest, pid, r =>
    if p.1 = pid then (p.1, r) :: rest else p :: upsertResult rest pid r

/-- Increment-or-insert for the result-key → count map
(`e.resultCounts[requestID][resultKey]++`). -/
def bumpCount : List (String × Nat) → String → List (String × Nat)
  | [], k => [(k, 1)]
  | p :: rest, k =>
    if p.1 = k then (p.1, p.2 + 1) :: rest else p :: bumpCount rest k

/-- Function `Engine.SubmitResult`: stores the result under the participant
(overwriting any earlier one) and increments the count for the result key.
The count of the overwritten result is never decremented. -/
def SubmitResult (st : ReqState) (participantID result : String) : ReqState :=
  { consensusResults := upsertResult st.consensusResults participantID result,
    resultCounts := bumpCount st.resultCounts result }

/-- Loop `for _, result := range consensusResults { if string(result) == resultKey
{ consensusResult = result; break } }`. -/
def findResult : List (String × String) → String → Option String
  | [], _ => none
  | p :: rest, key => if p.2 = key then some p.2 else findResult rest key

/-- One step of the max-count scan in `Engine.CheckConsensus`: take the new
bucket when its count strictly exceeds the running max; look up the result
bytes among current submissions, keeping the old bytes if no participant
currently holds that result. -/
def checkFold (res : List (String × String)) (acc : Nat × Option String)
    (kc : String × Nat) : Nat × Option String :=
  if kc.2 > acc.1 then
    (kc.2, match findResult res kc.1 with
           | some r => some r
           | none => acc.2)
  else acc

/-- Function `Engine.CheckConsensus`: max vote count over `resultCounts`, decided
when `maxCount*3 >= totalParticipants*2`, where `totalParticipants` counts
distinct participants in `consensusResults`. -/
def CheckConsensus (st : ReqState) : Bool × Option String :=
  if st.consensusResults.length = 0 then (false, none)
  else
    let m := st.resultCounts.foldl (checkFold st.consensusResults) (0, none)
    if m.1 * 3 ≥ st.consensusResults.length * 2 then (true, m.2)
    else (false, none)

/-- Empty per-request state (no submissions yet). -/
def emptyReq : ReqState := ⟨[], []⟩

/-- Submission sequence: A votes "x", B votes "x", then A revotes "y". -/
def submitSeqBug : ReqState :=
  SubmitResult (SubmitResult (SubmitResult emptyReq "A" "x") "B" "x") "A" "y"

/-- The same request as if A had only ever voted "y". -/
def submitSeqClean : ReqState :=
  SubmitResult (SubmitResult emptyReq "A" "y") "B" "x"

end Consensus

/-! ## Gossip overlay (`internal/p2p/gossip.go`)

`GossipEngine` state and its message-processing paths.  Scores are `ℚ`,
timestamps `Int` (unix seconds), peers an association list in insertion
order.  Outbound network activity is returned as the list of peer ids the
message is sent to. -/

namespace Gossip

structure Message where
  type : String
  sender : String
  requestID : String
  farmData : List ℚ
  farmScore : ℚ
  timestamp : Int
deriving DecidableEq

structure Peer where
  id : String
  address : String
  lastSeen : Int
deriving DecidableEq

structure State where
  nodeID : String
  listenAddr : String
  peers : List Peer
  knownMessages : List String
  callbacks : List String
  scoreResults : List (String × List (String × ℚ))
deriving DecidableEq

/-- Message id `fmt.Sprintf("%s-%s-%d", msg.Type, msg.Sender, msg.Timestamp)`. -/
def messageID (m : Message) : String :=
  m.type ++ "-" ++ m.sender ++ "-" ++ toString m.timestamp

/-- Association-list lookup for the peer map `g.peers[id]`. -/
def findPeer : List Peer → String → Option Peer
  | [], _ => none
  | p :: rest, pid => if p.id = pid then some p else findPeer rest pid

/-- Refresh `LastSeen` of the sender if it is a known peer
(`handleConnection` lines 380-386). -/
def touchPeer (peers : List Peer) (sender : String) (now : Int) : List Peer :=
  peers.map (fun p => if p.id = sender then { p with lastSeen := now } else p)

/-- Overwrite-or-insert for the per-request sender → score map. -/
def upsertScore : List (String × ℚ) → String → ℚ → List (String × ℚ)
  | [], sender, score => [(sender, score)]
  | p :: rest, sender, score =>
    if p.1 = sender then (p.1, score) :: rest else p :: upsertScore rest sender score

/-- Store `g.scoreResults[requestID][sender] = score`, creating the inner
map if needed. -/
def upsertRequest : List (String × List (String × ℚ)) → String → String → ℚ →
    List (String × List (String × ℚ))
  | [], req, sender, score => [(req, [(sender, score)])]
  | p :: rest, req, sender, score =>
    if p.1 = req then (p.1, upsertScore p.2 sender score) :: rest
    else p :: upsertRequest rest req sender score

/-- Function `broadcastMessage`: snapshot the peer table, drop the message if its id
is in the seen-set, otherwise record the id and send to every peer in the
snapshot.  Returns the new state and the ids of the peers dialled. -/
def broadcastMessage (st : State) (msg : Message) : State × List String :=
  if st.knownMessages.contains (messageID msg) then (st, [])
  else ({ st with knownMessages := messageID msg :: st.knownMessages },
        st.peers.map Peer.id)

/-- Peer entry built by the discovery branch: address
`fmt.Sprintf("127.0.0.1:%s", port)` derived from `msg.FarmData[0]`. -/
def discoveredPeer (sender : String) (port : ℚ) (now : Int) : Peer :=
  { id := sender, address := "127.0.0.1:" ++ toString port, lastSeen := now }

/-- State with `g.scoreResults[msg.RequestID][msg.Sender] = msg.FarmScore`
recorded (the `farm_score` branch of `processMessage`). -/
def scoredState (st : State) (msg : Message) : State :=
  { st with scoreResults :=
      upsertRequest st.scoreResults msg.requestID msg.sender msg.farmScore }

/-- State-update part of `processMessage` (the `switch msg.Type` block).
The `peer_discovery` branch reads `msg.FarmData[0]` unconditionally when
the sender is unknown; an empty payload makes the Go code panic with an
index-out-of-range, modelled as `none`. -/
def processState (now : Int) (st : State) (msg : Message) : Option State :=
  if msg.type = "peer_discovery" then
    match findPeer st.peers msg.sender with
    | some _ => some st
    | none =>
      match msg.farmData.head? with
      | none => none
      | some port =>
        some { st with peers := st.peers ++ [discoveredPeer msg.sender port now] }
  else if msg.type = "farm_score" then some (scoredState st msg)
  else some st

/-- Function `processMessage`: type-directed state update, then dispatch to the
registered callback for the type (we record the dispatched messages). -/
def processMessage (now : Int) (st : State) (msg : Message) :
    Option (State × List Message) :=
  match processState now st msg with
  | none => none
  | some st1 =>
    some (st1, if st1.callbacks.contains msg.type then [msg] else [])

/-- Function `handleConnection`: refresh the sender's last-seen time, process the
message (dispatching its handler), then relay it via `broadcastMessage`.
Result: new state, relay send targets, handler invocations. -/
def handleConnection (now : Int) (st : State) (msg : Message) :
    Option (State × List String × List Message) :=
  match processMessage now
      { st with peers := touchPeer st.peers msg.sender now } msg with
  | none => none
  | some (st1, calls) =>
    some ((broadcastMessage st1 msg).1, (broadcastMessage st1 msg).2, calls)

/-- Timestamp stamping at the top of `Broadcast` (set it to the current
time when unset). -/
def stampedMessage (now : Int) (msg : Message) : Message :=
  if msg.timestamp = 0 then { msg with timestamp := now } else msg

/-- Function `Broadcast`: stamp the timestamp if unset, send via `broadcastMessage`,
then process the message locally. -/
def Broadcast (now : Int) (st : State) (msg : Message) :
    Option (State × List String × List Message) :=
  match processMessage now
      (broadcastMessage st (stampedMessage now msg)).1 (stampedMessage now msg) with
  | none => none
  | some (st2, calls) =>
    some (st2, (broadcastMessage st (stampedMessage now msg)).2, calls)

/-- Function `cleanupOldPeers`: drop every peer whose `LastSeen` is strictly before
`now - 2 minutes` (120 seconds). -/
def cleanupOldPeers (now : Int) (st : State) : State :=
  { st with peers := st.peers.filter (fun p => !decide (p.lastSeen < now - 120)) }

/-! ### Exact-match quorum (`GossipEngine.CheckConsensus`)

Operates on the per-request sender → score map `g.scoreResults[requestID]`,
taken as an ordered association list `results`.  The score buckets
(`scoreCounts`) are kept in first-occurrence order. -/

/-- Bucket-count update `scoreCounts[score]++`. -/
def addVote : List (ℚ × Nat) → ℚ → List (ℚ × Nat)
  | [], s => [(s, 1)]
  | (t, c) :: rest, s =>
    if t = s then (t, c + 1) :: rest else (t, c) :: addVote rest s

/-- Bucket the vote values by exact equality. -/
def scoreCounts (votes : List ℚ) : List (ℚ × Nat) := votes.foldl addVote []

/-- One step of the max-votes scan (strict greater, first maximum wins). -/
def maxStep (acc : Nat × ℚ) (b : ℚ × Nat) : Nat × ℚ :=
  if b.2 > acc.1 then (b.2, b.1) else acc

/-- Function `GossipEngine.CheckConsensus`: empty result map means no consensus;
otherwise find the bucket with the most votes and decide its score when
`maxCount*3 >= totalParticipants*2`. -/
def CheckConsensus (results : List (String × ℚ)) : Bool × ℚ :=
  if results.length = 0 then (false, 0)
  else
    let votes := results.map Prod.snd
    let m := (scoreCounts votes).foldl maxStep (0, 0)
    if m.1 * 3 ≥ results.length * 2 then (true, m.2) else (false, 0)

/-- First-occurrence count lookup in a bucket list (proof device). -/
def countIn : List (ℚ × Nat) → ℚ → Nat
  | [], _ => 0
  | p :: rest, t => if p.1 = t then p.2 else countIn rest t

/-- The vote-level core of `CheckConsensus` (proof device: the function
depends on its argument only through the vote values and their number). -/
def checkVotes (votes : List ℚ) : Bool × ℚ :=
  if votes.length = 0 then (false, 0)
  else
    let m := (scoreCounts votes).foldl maxStep (0, 0)
    if m.1 * 3 ≥ votes.length * 2 then (true, m.2) else (false, 0)

end Gossip

/-! ## Score calculator (`internal/p2p/farm_score.go`)

`FarmScoreCalculator` over `float64`, idealised as exact real arithmetic
(the spec's determinism contract fixes evaluation order, which exact `ℝ`
arithmetic abstracts).  Loops become left folds, `math.Pow(x, 2)` becomes
`x ^ 2`, and `math.Round` is rounding half away from zero. -/

namespace P2p

/-- Go `math.Round`: nearest integer, ties rounded away from zero. -/
noncomputable def mathRound (x : ℝ) : ℝ :=
  if 0 ≤ x then ((⌊x + 1/2⌋ : ℤ) : ℝ) else ((⌈x - 1/2⌉ : ℤ) : ℝ)

/-- Function `calculateAverageReturn`: left-to-right sum divided by the length. -/
noncomputable def calculateAverageReturn (returns : List ℝ) : ℝ :=
  if returns.length = 0 then 0
  else (returns.foldl (fun sum r => sum + r) 0) / (returns.length : ℝ)

/-- Function `calculateSharpeRatio`: sample standard deviation (denominator n-1),
zero for fewer than two returns or zero deviation. -/
noncomputable def calculateSharpeRatio (returns : List ℝ) : ℝ :=
  if returns.length < 2 then 0
  else
    let riskFreeRate : ℝ := 0
    let averageReturn := calculateAverageReturn returns
    let variance := (returns.foldl (fun v r => v + (r - averageReturn) ^ 2) 0) /
      ((returns.length - 1 : ℕ) : ℝ)
    let stdDev := Real.sqrt variance
    if stdDev = 0 then 0 else (averageReturn - riskFreeRate) / stdDev

/-- Function `calculateSortinoRatio`: downside deviation over the strictly negative
returns; `averageReturn * 10` when there is no downside. -/
noncomputable def calculateSortinoRatio (returns : List ℝ) : ℝ :=
  if returns.length < 2 then 0
  else
    let riskFreeRate : ℝ := 0
    let averageReturn := calculateAverageReturn returns
    let downsideSum := returns.foldl (fun s r => if r < 0 then s + r ^ 2 else s) 0
    let downsideCount := returns.foldl (fun c r => if r < 0 then c + 1 else c) (0 : ℕ)
    if downsideCount = 0 then averageReturn * 10
    else
      let downsideDeviation := Real.sqrt (downsideSum / (downsideCount : ℝ))
      if downsideDeviation = 0 then 0
      else (averageReturn - riskFreeRate) / downsideDeviation

/-- Tail of the cumulative-returns array: each entry is the previous one
times `1 + r`. -/
noncomputable def cumulativeSteps : ℝ → List ℝ → List ℝ
  | _, [] => []
  | acc, r :: rest => (acc * (1 + r)) :: cumulativeSteps (acc * (1 + r)) rest

/-- Cumulative returns: first entry `1 + r₀`, then the running product. -/
noncomputable def cumulativeReturns (returns : List ℝ) : List ℝ :=
  match returns with
  | [] => []
  | r0 :: rest => (1 + r0) :: cumulativeSteps (1 + r0) rest

/-- One step of the drawdown scan: a new peak replaces the old one,
otherwise the drawdown from the current peak is compared to the maximum. -/
noncomputable def drawdownStep (pm : ℝ × ℝ) (value : ℝ) : ℝ × ℝ :=
  if value > pm.1 then (value, pm.2)
  else
    let drawdown := (pm.1 - value) / pm.1
    if drawdown > pm.2 then (pm.1, drawdown) else pm

/-- Function `calculateMaximumDrawdown`: scan the cumulative series with the peak
initialised to its first element and the maximum drawdown to zero. -/
noncomputable def calculateMaximumDrawdown (returns : List ℝ) : ℝ :=
  if returns.length < 2 then 0
  else
    match cumulativeReturns returns with
    | [] => 0
    | c0 :: rest => (((c0 :: rest).foldl drawdownStep (c0, 0))).2

/-- Function `FarmScoreCalculator.CalculateFarmScore`:
`0.4*sortino + 0.4*sharpe + 0.2*maxDrawdown + 2*averageReturn`, rounded to
six decimal digits with `math.Round(farmScore*1000000)/1000000`. -/
noncomputable def CalculateFarmScore (returns : List ℝ) : ℝ :=
  if returns.length = 0 then 0
  else
    let sharpeRatio := calculateSharpeRatio returns
    let sortinoRatio := calculateSortinoRatio returns
    let maxDrawdown := calculateMaximumDrawdown returns
    let averageReturn := calculateAverageReturn returns
    let farmScore := 0.4 * sortinoRatio + 0.4 * sharpeRatio +
      0.2 * maxDrawdown + 2 * averageReturn
    mathRound (farmScore * 1000000) / 1000000

end P2p

/-! ## Spec-side score model (spec §4.1)

Definitions transcribed from the specification's words, to be compared
with the source embedding above.  `roundHalfEven` is the rounding rule the
spec (and claim C2) prescribes; `roundHalfAway` is the rule the code
actually uses, stated here in the spec's vocabulary for the amended claim. -/

namespace SpecModel

/-- Round half to even: at an exact half, pick the even neighbour. -/
noncomputable def roundHalfEven (x : ℝ) : ℤ :=
  if Int.fract x = 1/2 then (if Even ⌊x⌋ then ⌊x⌋ else ⌊x⌋ + 1) else round x

/-- Round half away from zero. -/
noncomputable def roundHalfAway (x : ℝ) : ℤ :=
  if 0 ≤ x then ⌊x + 1/2⌋ else ⌈x - 1/2⌉

/-- Mean μ = Σ rᵢ / n. -/
noncomputable def mean (r : List ℝ) : ℝ := r.sum / (r.length : ℝ)

/-- Sample standard deviation σ = √(Σ(rᵢ-μ)² / (n-1)). -/
noncomputable def stdDev (r : List ℝ) : ℝ :=
  Real.sqrt ((r.map (fun x => (x - mean r) ^ 2)).sum / ((r.length : ℝ) - 1))

/-- Strictly negative returns of the series. -/
noncomputable def negatives (r : List ℝ) : List ℝ := r.filter (fun x => x < 0)

/-- Downside deviation d = √(Σ_{rᵢ<0} rᵢ² / k). -/
noncomputable def downside (r : List ℝ) : ℝ :=
  Real.sqrt (((negatives r).map (fun x => x ^ 2)).sum / ((negatives r).length : ℝ))

/-- Sharpe ratio S = μ/σ with the spec's edge cases (n < 2 and σ = 0). -/
noncomputable def sharpe (r : List ℝ) : ℝ :=
  if r.length < 2 then 0
  else if stdDev r = 0 then 0
  else mean r / stdDev r

/-- Sortino ratio T = μ/d with the spec's edge cases (n < 2, k = 0 giving
the sentinel 10μ, and d = 0 with k > 0). -/
noncomputable def sortino (r : List ℝ) : ℝ :=
  if r.length < 2 then 0
  else if (negatives r).length = 0 then 10 * mean r
  else if downside r = 0 then 0
  else mean r / downside r

/-- One step of the spec's drawdown: peakᵢ is the running maximum up to i,
D the running maximum of (peakᵢ - cᵢ)/peakᵢ. -/
noncomputable def specDrawdownStep (pm : ℝ × ℝ) (c : ℝ) : ℝ × ℝ :=
  (max pm.1 c, max pm.2 ((max pm.1 c - c) / max pm.1 c))

/-- Maximum drawdown D = max over i of (peakᵢ - cᵢ)/peakᵢ over the
cumulative series cᵢ (c₀ = 1+r₀, cᵢ = cᵢ₋₁·(1+rᵢ)), zero when n < 2. -/
noncomputable def maxDrawdown (r : List ℝ) : ℝ :=
  if r.length < 2 then 0
  else
    match P2p.cumulativeReturns r with
    | [] => 0
    | c0 :: rest => (((c0 :: rest).foldl specDrawdownStep (c0, 0))).2

/-- Score = 0.4·T + 0.4·S + 0.2·D + 2·μ before rounding. -/
noncomputable def score (r : List ℝ) : ℝ :=
  0.4 * sortino r + 0.4 * sharpe r + 0.2 * maxDrawdown r + 2 * mean r

/-- Spec's calculator output with the claimed round-half-to-even rule
(n = 0 returns 0). -/
noncomputable def scoreRoundedEven (r : List ℝ) : ℝ :=
  if r.length = 0 then 0
  else ((roundHalfEven (score r * 1000000) : ℤ) : ℝ) / 1000000

/-- Spec's calculator output with round half away from zero (the rule the
code actually implements). -/
noncomputable def scoreRoundedAway (r : List ℝ) : ℝ :=
  if r.length = 0 then 0
  else ((roundHalfAway (score r * 1000000) : ℤ) : ℝ) / 1000000

end SpecModel

/-! ## Concrete states and messages used in counterexamples and witnesses -/

namespace Inputs

/-- Node with one registered `farm_score` handler, no peers, empty seen-set. -/
def stHandler : Gossip.State :=
  { nodeID := "self", listenAddr := "localhost:9000", peers := [],
    knownMessages := [], callbacks := ["farm_score"], scoreResults := [] }

/-- A `farm_score` message from peer1. -/
def mScore : Gossip.Message :=
  { type := "farm_score", sender := "peer1", requestID := "req1",
    farmData := [], farmScore := 171/2, timestamp := 5 }

/-- Node with two peers A and B and an empty seen-set. -/
def stTwoPeers : Gossip.State :=
  { nodeID := "self", listenAddr := "localhost:9000",
    peers := [⟨"A", "127.0.0.1:9001", 0⟩, ⟨"B", "127.0.0.1:9002", 0⟩],
    knownMessages := [], callbacks := [], scoreResults := [] }

/-- A heartbeat frame arriving from peer A (who is in the peer table). -/
def mFromA : Gossip.Message :=
  { type := "heartbeat", sender := "A", requestID := "",
    farmData := [], farmScore := 0, timestamp := 7 }

/-- Node with one peer used for the broadcast-idempotence witness. -/
def stOnePeer : Gossip.State :=
  { nodeID := "self", listenAddr := "localhost:9000",
    peers := [⟨"B", "127.0.0.1:9002", 0⟩],
    knownMessages := [], callbacks := [], scoreResults := [] }

/-- The handler-node state with `mScore`'s id already in the seen-set. -/
def stSeen : Gossip.State :=
  { stHandler with knownMessages := [Gossip.messageID mScore] }

/-- Peer table with one fresh and one stale entry relative to `now = 200`. -/
def stAges : Gossip.State :=
  { nodeID := "self", listenAddr := "localhost:9000",
    peers := [⟨"old", "127.0.0.1:9003", 0⟩, ⟨"fresh", "127.0.0.1:9004", 150⟩],
    knownMessages := [], callbacks := [], scoreResults := [] }

/-- A `peer_discovery` message with an empty `FarmData` payload. -/
def mDiscoveryEmpty : Gossip.Message :=
  { type := "peer_discovery", sender := "newpeer", requestID := "",
    farmData := [], farmScore := 0, timestamp := 9 }

/-- The seen-id state after the duplicate `farm_score` frame is processed:
only the score table changed, no relay happened. -/
def stSeenScored : Gossip.State :=
  { stSeen with scoreResults := [("req1", [("peer1", 171/2)])] }

/-- The two-peer state after relaying the heartbeat from A at time 9. -/
def stTwoPeersRelayed : Gossip.State :=
  { nodeID := "self", listenAddr := "localhost:9000",
    peers := [⟨"A", "127.0.0.1:9001", 9⟩, ⟨"B", "127.0.0.1:9002", 0⟩],
    knownMessages := [Gossip.messageID mFromA],
    callbacks := [], scoreResults := [] }

end Inputs

/-! ## Lemmas about the tolerance-quorum grouping -/

namespace Proto

/-- Assigning one validator grows the total membership by exactly one. -/
theorem assign_sizes (gs : List (ℚ × List String)) (vid : String) (score : ℚ) :
    ((assign gs vid score).map (fun g => g.2.length)).sum =
      ((gs.map (fun g => g.2.length)).sum) + 1 := by
  induction gs with
  | nil => simp [assign]
  | cons hd tl ih =>
    obtain ⟨ref, members⟩ := hd
    by_cases hj : joins score ref
    · simp [assign, hj]
      omega
    · simp [assign, hj, ih]
      omega

theorem groups_loop_sizes (scores : List (String × ℚ)) :
    ∀ acc : List (ℚ × List String),
      (((scores.foldl (fun a p => assign a p.1 p.2) acc).map
        (fun g => g.2.length)).sum) =
      ((acc.map (fun g => g.2.length)).sum) + scores.length := by
  induction scores with
  | nil => intro acc; simp
  | cons hd tl ih =>
    intro acc
    simp only [List.foldl_cons, List.length_cons]
    rw [ih (assign acc hd.1 hd.2), assign_sizes]
    omega

/-- The classes partition the vote set: sizes add up to the number of votes. -/
theorem groups_sizes (scores : List (String × ℚ)) :
    (((groups scores).map (fun g => g.2.length)).sum) = scores.length := by
  have h := groups_loop_sizes scores []
  simpa [groups] using h

theorem mem_size_le_sum (gs : List (ℚ × List String)) (g : ℚ × List String)
    (hg : g ∈ gs) : g.2.length ≤ ((gs.map (fun x => x.2.length)).sum) := by
  induction gs with
  | nil => cases hg
  | cons hd tl ih =>
    rcases List.mem_cons.mp hg with h | h
    · subst h; simp
    · have := ih h
      simp
      omega

/-- Two distinct classes together cannot exceed the total membership. -/
theorem two_mem_size_le_sum (gs : List (ℚ × List String))
    (g1 g2 : ℚ × List String) (h1 : g1 ∈ gs) (h2 : g2 ∈ gs) (hne : g1 ≠ g2) :
    g1.2.length + g2.2.length ≤ ((gs.map (fun x => x.2.length)).sum) := by
  induction gs with
  | nil => cases h1
  | cons hd tl ih =>
    rcases List.mem_cons.mp h1 with e1 | m1
    · subst e1
      have m2 : g2 ∈ tl := by
        rcases List.mem_cons.mp h2 with e2 | m2
        · exact absurd e2.symm hne
        · exact m2
      have := mem_size_le_sum tl g2 m2
      simp
      omega
    · rcases List.mem_cons.mp h2 with e2 | m2
      · subst e2
        have := mem_size_le_sum tl g1 m1
        simp
        omega
      · have := ih m1 m2
        simp
        omega

/-- The largest-class scan returns either its initial accumulator or a class
of the list, and its size bounds every class size. -/
theorem largest_fold_spec (gs : List (ℚ × List String)) :
    ∀ a : ℚ × List String,
      a.2.length ≤ ((gs.foldl (fun acc g =>
          if g.2.length > acc.2.length then g else acc) a)).2.length ∧
      (∀ g ∈ gs, g.2.length ≤ ((gs.foldl (fun acc g =>
          if g.2.length > acc.2.length then g else acc) a)).2.length) ∧
      (((gs.foldl (fun acc g =>
          if g.2.length > acc.2.length then g else acc) a)) = a ∨
        ((gs.foldl (fun acc g =>
          if g.2.length > acc.2.length then g else acc) a)) ∈ gs) := by
  induction gs with
  | nil => intro a; simp
  | cons hd tl ih =>
    intro a
    simp only [List.foldl_cons]
    by_cases hgt : hd.2.length > a.2.length
    · simp only [if_pos hgt]
      obtain ⟨ha, hall, hmem⟩ := ih hd
      refine ⟨le_trans (le_of_lt hgt) ha, ?_, ?_⟩
      · intro g hg
        rcases List.mem_cons.mp hg with e | m
        · subst e; exact ha
        · exact hall g m
      · rcases hmem with e | m
        · exact Or.inr (by rw [e]; exact List.mem_cons_self hd tl)
        · exact Or.inr (List.mem_cons_of_mem hd m)
    · simp only [if_neg hgt]
      obtain ⟨ha, hall, hmem⟩ := ih a
      refine ⟨ha, ?_, ?_⟩
      · intro g hg
        rcases List.mem_cons.mp hg with e | m
        · subst e; omega
        · exact hall g m
      · rcases hmem with e | m
        · exact Or.inl e
        · exact Or.inr (List.mem_cons_of_mem hd m)

end Proto

/-! ## Lemmas about the exact-match quorum buckets -/

namespace Gossip

theorem addVote_countIn (l : List (ℚ × Nat)) (s t : ℚ) :
    countIn (addVote l s) t = if t = s then countIn l t + 1 else countIn l t := by
  induction l with
  | nil =>
    by_cases h : t = s
    · subst h; simp [addVote, countIn]
    · have h2 : ¬ s = t := fun hh => h hh.symm
      simp [addVote, countIn, h, h2]
  | cons hd tl ih =>
    obtain ⟨a, c⟩ := hd
    by_cases has : a = s
    · subst has
      by_cases hat : a = t
      · subst hat
        simp [addVote, countIn]
      · have hta : ¬ t = a := fun hh => hat hh.symm
        simp [addVote, countIn, hat, hta]
    · by_cases hat : a = t
      · subst hat
        have hta : ¬ a = s := has
        simp [addVote, countIn, hta, fun hh : a = s => has hh]
      · simp [addVote, countIn, has, hat, ih]

theorem addVote_keys (l : List (ℚ × Nat)) (s : ℚ) :
    (addVote l s).map Prod.fst =
      if s ∈ l.map Prod.fst then l.map Prod.fst else l.map Prod.fst ++ [s] := by
  induction l with
  | nil => simp [addVote]
  | cons hd tl ih =>
    obtain ⟨a, c⟩ := hd
    by_cases has : a = s
    · subst has
      simp [addVote]
    · have hsa : ¬ s = a := fun hh => has hh.symm
      by_cases hmem : s ∈ tl.map Prod.fst
      · simp [addVote, has, ih, hmem, hsa]
      · simp [addVote, has, ih, hmem, hsa]

theorem addVote_keys_nodup (l : List (ℚ × Nat)) (s : ℚ)
    (h : (l.map Prod.fst).Nodup) : ((addVote l s).map Prod.fst).Nodup := by
  rw [addVote_keys]
  by_cases hmem : s ∈ l.map Prod.fst
  · simpa [hmem] using h
  · simp only [hmem, if_false]
    apply List.Nodup.append h (List.nodup_singleton s)
    intro x hx hxs
    rw [List.mem_singleton] at hxs
    exact hmem (hxs ▸ hx)

theorem addVote_pos (l : List (ℚ × Nat)) (s : ℚ)
    (h : ∀ p ∈ l, 1 ≤ p.2) : ∀ p ∈ addVote l s, 1 ≤ p.2 := by
  induction l with
  | nil =>
    intro p hp
    simp only [addVote, List.mem_singleton] at hp
    subst hp
    exact le_refl 1
  | cons hd tl ih =>
    obtain ⟨a, c⟩ := hd
    by_cases has : a = s
    · subst has
      intro p hp
      simp only [addVote, if_pos rfl] at hp
      rcases List.mem_cons.mp hp with e | m
      · subst e
        have hac := h (a, c) (List.mem_cons_self _ _)
        simp only at hac ⊢
        omega
      · exact h p (List.mem_cons_of_mem _ m)
    · intro p hp
      simp only [addVote, if_neg has] at hp
      rcases List.mem_cons.mp hp with e | m
      · subst e
        exact h (a, c) (List.mem_cons_self _ _)
      · exact ih (fun q hq => h q (List.mem_cons_of_mem _ hq)) p m

theorem countIn_of_mem (l : List (ℚ × Nat)) (t : ℚ) (c : Nat)
    (hnd : (l.map Prod.fst).Nodup) (hm : (t, c) ∈ l) : countIn l t = c := by
  induction l with
  | nil => cases hm
  | cons hd tl ih =>
    obtain ⟨a, b⟩ := hd
    rw [List.map_cons] at hnd
    obtain ⟨hnin, hnd2⟩ := List.nodup_cons.mp hnd
    rcases List.mem_cons.mp hm with e | m
    · have e1 : t = a := congrArg Prod.fst e
      have e2 : c = b := congrArg Prod.snd e
      subst e1
      subst e2
      simp [countIn]
    · have hat : ¬ a = t := by
        intro hh
        apply hnin
        rw [hh]
        exact List.mem_map.mpr ⟨(t, c), m, rfl⟩
      simp only [countIn, if_neg hat]
      exact ih hnd2 m

theorem mem_of_countIn (l : List (ℚ × Nat)) (t : ℚ) (c : Nat)
    (hc : countIn l t = c) (hpos : c ≠ 0) : (t, c) ∈ l := by
  induction l with
  | nil =>
    exfalso
    apply hpos
    simpa [countIn] using hc.symm
  | cons hd tl ih =>
    obtain ⟨a, b⟩ := hd
    by_cases hat : a = t
    · subst hat
      simp only [countIn, if_pos rfl] at hc
      subst hc
      exact List.mem_cons_self _ _
    · simp only [countIn, if_neg hat] at hc
      exact List.mem_cons_of_mem _ (ih hc)

theorem scoreCounts_append (votes : List ℚ) (s : ℚ) :
    scoreCounts (votes ++ [s]) = addVote (scoreCounts votes) s := by
  simp [scoreCounts, List.foldl_append]

theorem countIn_scoreCounts (votes : List ℚ) (t : ℚ) :
    countIn (scoreCounts votes) t = votes.count t := by
  induction votes using List.reverseRecOn with
  | nil => simp [scoreCounts, countIn]
  | append_singleton vs s ih =>
    rw [scoreCounts_append, addVote_countIn, ih]
    by_cases h : t = s
    · subst h
      simp [List.count_append]
    · simp [List.count_append, List.count_singleton', h]

theorem scoreCounts_keys_nodup (votes : List ℚ) :
    ((scoreCounts votes).map Prod.fst).Nodup := by
  induction votes using List.reverseRecOn with
  | nil => simp [scoreCounts]
  | append_singleton vs s ih =>
    rw [scoreCounts_append]
    exact addVote_keys_nodup _ s ih

theorem scoreCounts_pos (votes : List ℚ) :
    ∀ p ∈ scoreCounts votes, 1 ≤ p.2 := by
  induction votes using List.reverseRecOn with
  | nil => simp [scoreCounts]
  | append_singleton vs s ih =>
    rw [scoreCounts_append]
    exact addVote_pos _ s ih

/-- The max-votes scan bounds every bucket and lands on its initial
accumulator or on an actual bucket. -/
theorem max_fold_spec (cnts : List (ℚ × Nat)) :
    ∀ a : Nat × ℚ,
      a.1 ≤ (cnts.foldl maxStep a).1 ∧
      (∀ p ∈ cnts, p.2 ≤ (cnts.foldl maxStep a).1) ∧
      ((cnts.foldl maxStep a) = a ∨
        (((cnts.foldl maxStep a).2, (cnts.foldl maxStep a).1) ∈ cnts)) := by
  induction cnts with
  | nil => intro a; simp
  | cons hd tl ih =>
    intro a
    simp only [List.foldl_cons]
    by_cases hgt : hd.2 > a.1
    · simp only [maxStep, if_pos hgt]
      obtain ⟨ha, hall, hmem⟩ := ih (hd.2, hd.1)
      refine ⟨le_trans (le_of_lt hgt) ha, ?_, ?_⟩
      · intro p hp
        rcases List.mem_cons.mp hp with e | m
        · subst e; exact ha
        · exact hall p m
      · rcases hmem with e | m
        · rw [e]
          exact Or.inr (by simp)
        · exact Or.inr (List.mem_cons_of_mem hd m)
    · simp only [maxStep, if_neg hgt]
      obtain ⟨ha, hall, hmem⟩ := ih a
      refine ⟨ha, ?_, ?_⟩
      · intro p hp
        rcases List.mem_cons.mp hp with e | m
        · subst e; omega
        · exact hall p m
      · rcases hmem with e | m
        · exact Or.inl e
        · exact Or.inr (List.mem_cons_of_mem hd m)

/-- Counts of two distinct values never exceed the list length. -/
theorem count_two_le_length (l : List ℚ) (a b : ℚ) (hne : a ≠ b) :
    l.count a + l.count b ≤ l.length := by
  induction l with
  | nil => simp
  | cons x xs ih =>
    simp only [List.count_cons, List.length_cons, beq_iff_eq]
    rcases eq_or_ne x a with h1 | h1 <;> rcases eq_or_ne x b with h2 | h2
    · exact absurd (h1.symm.trans h2) hne
    · rw [if_pos h1, if_neg h2]
      omega
    · rw [if_neg h1, if_pos h2]
      omega
    · rw [if_neg h1, if_neg h2]
      omega

end Gossip
/-! ## Lemmas about the gossip message-processing paths -/

namespace Gossip

theorem findPeer_append (l l2 : List Peer) (pid : String) :
    findPeer (l ++ l2) pid =
      (match findPeer l pid with
       | some q => some q
       | none => findPeer l2 pid) := by
  induction l with
  | nil => simp [findPeer]
  | cons p rest ih =>
    by_cases h : p.id = pid
    · simp [findPeer, h]
    · simp [findPeer, h, ih]

theorem touchPeer_ids (peers : List Peer) (sender : String) (now : Int) :
    (touchPeer peers sender now).map Peer.id = peers.map Peer.id := by
  simp only [touchPeer, List.map_map]
  apply List.map_congr_left
  intro p hp
  by_cases h : p.id = sender <;> simp [h]

theorem broadcastMessage_contains (st : State) (msg : Message)
    (h : messageID msg ∈ st.knownMessages) :
    broadcastMessage st msg = (st, []) := by
  unfold broadcastMessage
  rw [if_pos (by simpa using h)]

theorem broadcastMessage_fresh (st : State) (msg : Message)
    (h : messageID msg ∉ st.knownMessages) :
    broadcastMessage st msg =
      ({ st with knownMessages := messageID msg :: st.knownMessages },
        st.peers.map Peer.id) := by
  unfold broadcastMessage
  rw [if_neg (by simpa using h)]

theorem broadcastMessage_known (st : State) (msg : Message) :
    messageID msg ∈ (broadcastMessage st msg).1.knownMessages := by
  by_cases h : messageID msg ∈ st.knownMessages
  · rw [broadcastMessage_contains st msg h]
    exact h
  · rw [broadcastMessage_fresh st msg h]
    exact List.mem_cons_self _ _

/-- Every possible result of the state-update step, by case on the branch
taken. -/
theorem processState_cases (now : Int) (st : State) (msg : Message) (st1 : State)
    (h : processState now st msg = some st1) :
    st1 = st ∨
    (∃ port,
      st1 = { st with peers := st.peers ++ [discoveredPeer msg.sender port now] }) ∨
    st1 = scoredState st msg := by
  unfold processState at h
  split_ifs at h with h1 h2
  · rcases hfp : findPeer st.peers msg.sender with _ | p
    · rw [hfp] at h
      rcases hfd : msg.farmData with _ | ⟨port, rest⟩
      · rw [hfd] at h
        simp at h
      · rw [hfd] at h
        simp at h
        exact Or.inr (Or.inl ⟨port, h.symm⟩)
    · rw [hfp] at h
      simp at h
      exact Or.inl h.symm
  · simp at h
    exact Or.inr (Or.inr h.symm)
  · simp at h
    exact Or.inl h.symm

theorem processState_known (now : Int) (st : State) (msg : Message) (st1 : State)
    (h : processState now st msg = some st1) :
    st1.knownMessages = st.knownMessages := by
  rcases processState_cases now st msg st1 h with e | ⟨port, e⟩ | e <;>
    simp [e, scoredState]

theorem processState_callbacks (now : Int) (st : State) (msg : Message) (st1 : State)
    (h : processState now st msg = some st1) :
    st1.callbacks = st.callbacks := by
  rcases processState_cases now st msg st1 h with e | ⟨port, e⟩ | e <;>
    simp [e, scoredState]

theorem processState_peer_ids (now : Int) (st : State) (msg : Message) (st1 : State)
    (h : processState now st msg = some st1) (pid : String)
    (hm : pid ∈ st.peers.map Peer.id) : pid ∈ st1.peers.map Peer.id := by
  rcases processState_cases now st msg st1 h with e | ⟨port, e⟩ | e <;> rw [e]
  · exact hm
  · simp only [List.map_append]
    exact List.mem_append_left _ hm
  · exact hm

/-- Once the state update succeeded, running it again from the resulting
state succeeds as well (the discovery sender is now a known peer). -/
theorem processState_again (now now2 : Int) (st st1 : State) (msg : Message)
    (h : processState now st msg = some st1) :
    (processState now2 st1 msg).isSome := by
  unfold processState at h ⊢
  split_ifs at h ⊢ with h1 h2
  · rcases hfp : findPeer st.peers msg.sender with _ | p
    · rw [hfp] at h
      rcases hfd : msg.farmData with _ | ⟨port, rest⟩
      · rw [hfd] at h
        simp at h
      · rw [hfd] at h
        simp at h
        rw [← h]
        rcases hq : findPeer (st.peers ++ [discoveredPeer msg.sender port now])
            msg.sender with _ | q
        · rw [findPeer_append, hfp] at hq
          simp [findPeer, discoveredPeer] at hq
        · simp [hq]
    · rw [hfp] at h
      simp at h
      rw [← h, hfp]
      simp
  · simp
  · simp

theorem processMessage_elim (now : Int) (st : State) (msg : Message)
    (out : State × List Message) (h : processMessage now st msg = some out) :
    processState now st msg = some out.1 ∧
    out.2 = (if out.1.callbacks.contains msg.type then [msg] else []) := by
  unfold processMessage at h
  rcases hps : processState now st msg with _ | st1
  · rw [hps] at h
    simp at h
  · rw [hps] at h
    have h2 := Option.some.inj h
    refine ⟨?_, ?_⟩
    · rw [← h2]
    · rw [← h2]

theorem processMessage_of_processState (now : Int) (st : State) (msg : Message)
    (st1 : State) (h : processState now st msg = some st1) :
    processMessage now st msg =
      some (st1, if st1.callbacks.contains msg.type then [msg] else []) := by
  unfold processMessage
  rw [h]

end Gossip

/-! ## Claim C5: grouping criterion of the tolerance quorum -/

/-- C5 counterexample: the code groups 50 with reference −100 (deciding
consensus on their mean −25) although |50−(−100)|/|−100| = 1.5 is far above
the 1% tolerance, because the code divides by the signed reference. -/
theorem tolerance_groups_negative_reference :
    Proto.CheckConsensus [("v1", (-100 : ℚ)), ("v2", 50)] = (true, -25) ∧
    ¬ (|(50 : ℚ) - (-100)| / |(-100 : ℚ)| ≤ 1/100) := by
  constructor
  · norm_num +decide [Proto.CheckConsensus, Proto.groups, Proto.assign,
      Proto.joins, Proto.lookupScore, Nat.ceil_eq_iff]
  · norm_num

/-- C5 (amended): a score joins the class with reference `ref` exactly when
`|score − ref| / ref ≤ 0.01` with the signed reference in the denominator.
For a positive reference this coincides with the claimed
`|a−b|/|ref| ≤ 0.01` criterion (in particular 42.3 is grouped with 42.0),
but a negative reference accepts every score. -/
theorem joins_signed_denominator :
    (∀ score ref : ℚ, 0 < ref →
      (Proto.joins score ref ↔ |score - ref| / |ref| ≤ 1/100)) ∧
    (∀ score ref : ℚ, ref < 0 → Proto.joins score ref) ∧
    Proto.joins (423/10) 42 := by
  refine ⟨?_, ?_, ?_⟩
  · intro score ref h
    unfold Proto.joins
    rw [abs_of_pos h]
  · intro score ref h
    unfold Proto.joins
    have hz : |score - ref| / ref ≤ 0 :=
      div_nonpos_of_nonneg_of_nonpos (abs_nonneg _) h.le
    linarith
  · unfold Proto.joins
    rw [show (423 : ℚ)/10 - 42 = 3/10 by norm_num,
      abs_of_pos (by norm_num : (0 : ℚ) < 3/10)]
    norm_num

/-- C5 witness: the positive-reference equivalence applied at the spec's
own example, reference 42.0 and score 42.3. -/
theorem joins_signed_denominator_apply :
    Proto.joins (423/10) 42 ↔ |(423 : ℚ)/10 - 42| / |(42 : ℚ)| ≤ 1/100 :=
  joins_signed_denominator.1 (423/10) 42 (by norm_num)

/-! ## Claim C6: tie-breaking and determinism of the tolerance quorum -/

/-- C6 counterexample: the same vote set {a ↦ 100, b ↦ 101, c ↦ 102}
iterated in two admissible map orders produces two different decisions
(100.5 versus 101), refuting both the smallest-score tie-break and the
determinism of the decision in the vote set. -/
theorem tolerance_consensus_order_dependent :
    [("a", (100 : ℚ)), ("b", 101), ("c", 102)].Perm
      [("b", (101 : ℚ)), ("a", 100), ("c", 102)] ∧
    Proto.CheckConsensus [("a", 100), ("b", 101), ("c", 102)] = (true, 201/2) ∧
    Proto.CheckConsensus [("b", 101), ("a", 100), ("c", 102)] = (true, 101) ∧
    (201 : ℚ)/2 ≠ 101 := by
  refine ⟨List.Perm.swap _ _ _, ?_, ?_, by norm_num⟩
  · norm_num +decide [Proto.CheckConsensus, Proto.groups, Proto.assign,
      Proto.joins, Proto.lookupScore, Nat.ceil_eq_iff]
  · norm_num +decide [Proto.CheckConsensus, Proto.groups, Proto.assign,
      Proto.joins, Proto.lookupScore, Nat.ceil_eq_iff]

/-- C6 (amended): whenever the grouping pass yields two distinct classes of
equal maximal size, the 2/3 threshold is unreachable and the tolerance
check-consensus reports no consensus (it never decides by a tie-break);
determinism holds only for a fixed iteration order of the vote set. -/
theorem tolerance_tie_no_consensus (scores : List (String × ℚ))
    (g1 g2 : ℚ × List String)
    (h1 : g1 ∈ Proto.groups scores) (h2 : g2 ∈ Proto.groups scores)
    (hne : g1 ≠ g2) (hsz : g1.2.length = g2.2.length)
    (hmax : ∀ g ∈ Proto.groups scores, g.2.length ≤ g1.2.length) :
    Proto.CheckConsensus scores = (false, 0) := by
  simp only [Proto.CheckConsensus]
  by_cases hn : scores.length < 2
  · rw [if_pos hn]
  · rw [if_neg hn]
    have hsum : ((Proto.groups scores).map (fun g => g.2.length)).sum =
        scores.length := Proto.groups_sizes scores
    have h2L : g1.2.length + g2.2.length ≤ scores.length := by
      rw [← hsum]
      exact Proto.two_mem_size_le_sum _ g1 g2 h1 h2 hne
    obtain ⟨hinit, hall, hmem⟩ :=
      Proto.largest_fold_spec (Proto.groups scores) ((0 : ℚ), ([] : List String))
    set lg := (Proto.groups scores).foldl
      (fun acc g => if g.2.length > acc.2.length then g else acc)
      ((0 : ℚ), ([] : List String)) with hlg
    have hlgL : lg.2.length ≤ g1.2.length := by
      rcases hmem with e | m
      · rw [e]
        simp
      · exact hmax _ m
    have hn2 : 2 ≤ scores.length := by omega
    have h3L : lg.2.length * 3 < scores.length * 2 := by omega
    have hceil : lg.2.length < Nat.ceil ((scores.length : ℚ) * 2 / 3) := by
      rw [Nat.lt_ceil]
      have hc : (lg.2.length : ℚ) * 3 < (scores.length : ℚ) * 2 := by
        exact_mod_cast h3L
      linarith
    rw [if_neg (not_le.mpr hceil)]

/-- C6 witness: two singleton classes {100} and {200} tie at maximal size,
and the check indeed reports no consensus. -/
theorem tolerance_tie_no_consensus_apply :
    Proto.CheckConsensus [("a", (100 : ℚ)), ("b", 200)] = (false, 0) :=
  tolerance_tie_no_consensus [("a", 100), ("b", 200)]
    (100, ["a"]) (200, ["b"])
    (by norm_num [Proto.groups, Proto.assign, Proto.joins])
    (by norm_num [Proto.groups, Proto.assign, Proto.joins])
    (by norm_num)
    rfl
    (by norm_num [Proto.groups, Proto.assign, Proto.joins])

/-! ## Claim C1: exact-match quorum characterization -/

namespace Gossip

theorem checkConsensus_eq_checkVotes (results : List (String × ℚ)) :
    CheckConsensus results = checkVotes (results.map Prod.snd) := by
  simp only [CheckConsensus, checkVotes, List.length_map]

theorem checkVotes_iff (votes : List ℚ) (s : ℚ) :
    (checkVotes votes = (true, s) ↔
      (votes ≠ [] ∧ s ∈ votes ∧
        (∀ t ∈ votes, votes.count t ≤ votes.count s) ∧
        votes.count s * 3 ≥ votes.length * 2)) ∧
    ((checkVotes votes).1 = false → checkVotes votes = (false, 0)) := by
  refine ⟨?_, ?_⟩
  · by_cases h0 : votes.length = 0
    · have hve : votes = [] := List.length_eq_zero.mp h0
      subst hve
      simp [checkVotes]
    · have hvne : votes ≠ [] := by
        intro hh
        exact h0 (by simp [hh])
      simp only [checkVotes, if_neg h0]
      obtain ⟨hinit, hub, hmem0⟩ := max_fold_spec (scoreCounts votes) (0, 0)
      set r := (scoreCounts votes).foldl maxStep (0, 0) with hr
      have hcnt : ∀ t, countIn (scoreCounts votes) t = votes.count t :=
        fun t => countIn_scoreCounts votes t
      have hnodup := scoreCounts_keys_nodup votes
      have hcount_mem : ∀ t ∈ votes, (t, votes.count t) ∈ scoreCounts votes := by
        intro t ht
        exact mem_of_countIn _ _ _ (hcnt t)
          (fun hc0 => (List.count_eq_zero.mp hc0) ht)
      have hub2 : ∀ t ∈ votes, votes.count t ≤ r.1 :=
        fun t ht => hub _ (hcount_mem t ht)
      have hr1pos : 1 ≤ r.1 := by
        obtain ⟨t, ht⟩ := List.exists_mem_of_ne_nil votes hvne
        have h1 := hub2 t ht
        have h2 : 1 ≤ votes.count t := by
          rcases Nat.eq_zero_or_pos (votes.count t) with hz | hp
          · exact absurd ht (List.count_eq_zero.mp hz)
          · exact hp
        omega
      have hrmem : (r.2, r.1) ∈ scoreCounts votes := by
        rcases hmem0 with e | m
        · exfalso
          have hz : r.1 = 0 := by rw [e]
          omega
        · exact m
      have hr2 : r.1 = votes.count r.2 := by
        have hh := countIn_of_mem _ _ _ hnodup hrmem
        rw [hcnt] at hh
        omega
      have hr2mem : r.2 ∈ votes := by
        by_contra hnm
        have hz := List.count_eq_zero.mpr hnm
        omega
      by_cases hth : r.1 * 3 ≥ votes.length * 2
      · rw [if_pos hth]
        constructor
        · intro he
          have hs : s = r.2 := ((Prod.mk.injEq _ _ _ _).mp he).2.symm
          subst hs
          refine ⟨hvne, hr2mem, ?_, ?_⟩
          · intro t ht
            have := hub2 t ht
            omega
          · omega
        · rintro ⟨hx1, hx2, hx3, hx4⟩
          have hsne : r.2 = s := by
            by_contra hne
            have hsum := count_two_le_length votes s r.2 (fun hh => hne hh.symm)
            have hc_s_le : votes.count s ≤ r.1 := hub2 s hx2
            have h1le : 1 ≤ votes.count s := by
              rcases Nat.eq_zero_or_pos (votes.count s) with hz | hp
              · exact absurd hx2 (List.count_eq_zero.mp hz)
              · exact hp
            omega
          rw [hsne]
      · rw [if_neg hth]
        constructor
        · intro he
          exact absurd he (by simp)
        · rintro ⟨hx1, hx2, hx3, hx4⟩
          exfalso
          have hc_s_le : votes.count s ≤ r.1 := hub2 s hx2
          omega
  · intro hb
    simp only [checkVotes] at hb ⊢
    split_ifs at hb ⊢ <;> simp_all

end Gossip

/-- C1 counterexample: a single vote already decides; the gossip-layer
check has no `|V| ≥ 2` guard, so the claimed equivalence fails at a
one-vote request (the claim demands no consensus there). -/
theorem gossip_checkConsensus_singleton_decides :
    Gossip.CheckConsensus [("node1", (171 : ℚ)/2)] = (true, 171/2) ∧
    [("node1", (171 : ℚ)/2)].length = 1 := by
  constructor
  · norm_num +decide [Gossip.CheckConsensus, Gossip.scoreCounts,
      Gossip.addVote, Gossip.maxStep]
  · rfl

/-- C1 (amended): the exact-match quorum check decides score s iff the
vote set V is non-empty, s is a vote whose bucket is largest, and the
bucket size M satisfies M·3 ≥ |V|·2 — with |V| ≥ 1, not |V| ≥ 2; in every
other case it returns (false, 0).  (A single vote therefore always
decides.) -/
theorem gossip_checkConsensus_quorum_iff (results : List (String × ℚ)) (s : ℚ) :
    (Gossip.CheckConsensus results = (true, s) ↔
      (results.map Prod.snd ≠ [] ∧ s ∈ results.map Prod.snd ∧
        (∀ t ∈ results.map Prod.snd,
          (results.map Prod.snd).count t ≤ (results.map Prod.snd).count s) ∧
        (results.map Prod.snd).count s * 3 ≥ (results.map Prod.snd).length * 2)) ∧
    ((Gossip.CheckConsensus results).1 = false →
      Gossip.CheckConsensus results = (false, 0)) := by
  rw [Gossip.checkConsensus_eq_checkVotes]
  exact Gossip.checkVotes_iff (results.map Prod.snd) s

/-- C1 witness: three votes {1, 1, 2}; the bucket of 1 has M = 2,
M·3 = 6 ≥ 2·|V| = 6, and the check decides 1 via the characterization. -/
theorem gossip_checkConsensus_quorum_iff_apply :
    Gossip.CheckConsensus [("n1", (1 : ℚ)), ("n2", 1), ("n3", 2)] = (true, 1) :=
  (gossip_checkConsensus_quorum_iff [("n1", 1), ("n2", 1), ("n3", 2)] 1).1.mpr
    (by
      refine ⟨by simp, by simp, ?_, ?_⟩
      · intro t ht
        fin_cases ht <;> norm_num [List.count_cons]
      · norm_num [List.count_cons])

/-! ## Claim C4: stale counts in the agreement engine -/

/-- C4: after A votes "x", B votes "x" and A revotes "y", the engine's vote
map holds {A ↦ "y", B ↦ "x"}, yet `CheckConsensus` still decides "x" from
the never-decremented count of A's overwritten vote; had A only ever voted
"y" the same votes give no consensus.  The earlier vote therefore still
contributes to the decision, contradicting last-write-wins. -/
theorem engine_stale_count_consensus_bug :
    Consensus.CheckConsensus Consensus.submitSeqBug = (true, some "x") ∧
    Consensus.submitSeqBug.consensusResults = [("A", "y"), ("B", "x")] ∧
    Consensus.CheckConsensus Consensus.submitSeqClean = (false, none) :=
  ⟨rfl, rfl, rfl⟩

/-! ## Claim C9: stale-peer eviction -/

/-- C9: after `cleanupOldPeers` runs at time `now`, no peer entry whose
last-seen time is more than 2 minutes (120 s) before `now` remains, every
entry within the horizon is kept unchanged, and no entry is invented. -/
theorem cleanupOldPeers_spec (st : Gossip.State) (now : Int) :
    (∀ p ∈ (Gossip.cleanupOldPeers now st).peers, ¬ (p.lastSeen < now - 120)) ∧
    (∀ p ∈ st.peers, ¬ (p.lastSeen < now - 120) →
      p ∈ (Gossip.cleanupOldPeers now st).peers) ∧
    (∀ p ∈ (Gossip.cleanupOldPeers now st).peers, p ∈ st.peers) := by
  refine ⟨?_, ?_, ?_⟩
  · intro p hp
    simp only [Gossip.cleanupOldPeers] at hp
    rw [List.mem_filter] at hp
    simpa using hp.2
  · intro p hp hfresh
    simp only [Gossip.cleanupOldPeers]
    rw [List.mem_filter]
    exact ⟨hp, by simpa using hfresh⟩
  · intro p hp
    simp only [Gossip.cleanupOldPeers] at hp
    rw [List.mem_filter] at hp
    exact hp.1

/-- C9 witness: at now = 200 the peer seen at 150 (within the horizon)
survives the cleanup of a table that also holds a stale peer seen at 0. -/
theorem cleanupOldPeers_spec_apply :
    (⟨"fresh", "127.0.0.1:9004", 150⟩ : Gossip.Peer) ∈
      (Gossip.cleanupOldPeers 200 Inputs.stAges).peers :=
  (cleanupOldPeers_spec Inputs.stAges 200).2.1 _ (by decide) (by decide)

/-! ## Claim C10: totality of the discovery branch -/

/-- C10: for a `peer_discovery` message whose sender is not in the peer
table, `processMessage` succeeds exactly when the `FarmData` payload is
non-empty — `FarmData[0]` is read unconditionally, so an empty payload is
the out-of-range panic (`none`). -/
theorem processMessage_discovery_totality (now : Int) (st : Gossip.State)
    (msg : Gossip.Message) (htype : msg.type = "peer_discovery")
    (hunknown : Gossip.findPeer st.peers msg.sender = none) :
    ((Gossip.processMessage now st msg).isSome ↔ msg.farmData ≠ []) := by
  unfold Gossip.processMessage Gossip.processState
  rw [htype, if_pos rfl, hunknown]
  rcases hfd : msg.farmData with _ | ⟨port, rest⟩ <;> simp

/-- C10 witness: an empty-payload discovery message from an unknown sender
makes `processMessage` fail (the modelled index panic). -/
theorem processMessage_discovery_totality_apply :
    (Gossip.processMessage 9 Inputs.stTwoPeers Inputs.mDiscoveryEmpty).isSome ↔
      Inputs.mDiscoveryEmpty.farmData ≠ [] :=
  processMessage_discovery_totality 9 Inputs.stTwoPeers Inputs.mDiscoveryEmpty
    rfl rfl

/-! ## Claim C3: handler invocations versus the seen-set -/

/-- C3 counterexample: two inbound copies of the same frame (same message
id) each dispatch the registered `farm_score` handler — the handler runs
twice for one message id, because `processMessage` runs before the
seen-set is consulted. -/
theorem handler_invoked_twice_same_id :
    ((Gossip.handleConnection 5 Inputs.stHandler Inputs.mScore).bind
      (fun o1 => (Gossip.handleConnection 6 o1.1 Inputs.mScore).map
        (fun o2 => o1.2.2 ++ o2.2.2))) =
      some [Inputs.mScore, Inputs.mScore] := by
  rfl

/-- C3 (amended): the per-type handler is invoked once per delivery, not
once per message id: an inbound frame whose id is already in the seen-set
still dispatches the handler (when one is registered for its type); the
seen-set suppresses only the relay sends, which are empty here. -/
theorem handler_per_delivery_not_per_id (now : Int) (st : Gossip.State)
    (msg : Gossip.Message)
    (out : Gossip.State × List String × List Gossip.Message)
    (hknown : Gossip.messageID msg ∈ st.knownMessages)
    (h : Gossip.handleConnection now st msg = some out) :
    out.2.2 = (if st.callbacks.contains msg.type then [msg] else []) ∧
    out.2.1 = [] := by
  rcases hps : Gossip.processMessage now
      { st with peers := Gossip.touchPeer st.peers msg.sender now } msg
    with _ | ⟨st1, calls⟩
  · unfold Gossip.handleConnection at h
    rw [hps] at h
    simp at h
  · obtain ⟨hps1, hcalls⟩ := Gossip.processMessage_elim _ _ _ _ hps
    have hkn0 := Gossip.processState_known now _ msg _ hps1
    have hkn : st1.knownMessages = st.knownMessages := hkn0
    have hcb0 := Gossip.processState_callbacks now _ msg _ hps1
    have hcb : st1.callbacks = st.callbacks := hcb0
    have hbm := Gossip.broadcastMessage_contains st1 msg (by rw [hkn]; exact hknown)
    have hout : Gossip.handleConnection now st msg = some (st1, [], calls) := by
      unfold Gossip.handleConnection
      rw [hps]
      show some ((Gossip.broadcastMessage st1 msg).1,
        (Gossip.broadcastMessage st1 msg).2, calls) = some (st1, [], calls)
      rw [hbm]
    rw [hout] at h
    have h2 := Option.some.inj h
    rw [← h2]
    refine ⟨?_, rfl⟩
    rw [← hcb]
    exact hcalls

/-- C3 witness: the amended statement applied to a node whose seen-set
already holds the id of the arriving `farm_score` frame: the handler is
dispatched again and no relay is sent. -/
theorem handler_per_delivery_apply :
    (Inputs.stSeenScored, ([] : List String), [Inputs.mScore]).2.2 =
      (if Inputs.stSeen.callbacks.contains Inputs.mScore.type
        then [Inputs.mScore] else []) ∧
    (Inputs.stSeenScored, ([] : List String), [Inputs.mScore]).2.1 = [] :=
  handler_per_delivery_not_per_id 6 Inputs.stSeen Inputs.mScore
    (Inputs.stSeenScored, [], [Inputs.mScore])
    (List.mem_singleton.mpr rfl)
    (by rfl)

/-! ## Claim C7: relay fan-out and the sender -/

/-- C7 counterexample: a fresh heartbeat frame arriving from peer A is
relayed to both A and B — the sender A is not excluded from the fan-out. -/
theorem relay_includes_sender :
    (Gossip.handleConnection 9 Inputs.stTwoPeers Inputs.mFromA).map
      (fun o => o.2.1) = some ["A", "B"] ∧
    Inputs.mFromA.sender = "A" :=
  ⟨rfl, rfl⟩

/-- C7 (amended): for a fresh inbound frame, the relay sends to every peer
of the peer-table snapshot including the frame's sender; no peer id present
in the table before the frame was handled is missing from the fan-out. -/
theorem relay_sends_to_all_table_peers (now : Int) (st : Gossip.State)
    (msg : Gossip.Message)
    (out : Gossip.State × List String × List Gossip.Message)
    (h : Gossip.handleConnection now st msg = some out)
    (hfresh : Gossip.messageID msg ∉ st.knownMessages)
    (pid : String) (hpid : pid ∈ st.peers.map Gossip.Peer.id) :
    pid ∈ out.2.1 := by
  rcases hps : Gossip.processMessage now
      { st with peers := Gossip.touchPeer st.peers msg.sender now } msg
    with _ | ⟨st1, calls⟩
  · unfold Gossip.handleConnection at h
    rw [hps] at h
    simp at h
  · obtain ⟨hps1, hcalls⟩ := Gossip.processMessage_elim _ _ _ _ hps
    have hkn0 := Gossip.processState_known now _ msg _ hps1
    have hkn : st1.knownMessages = st.knownMessages := hkn0
    have hbm := Gossip.broadcastMessage_fresh st1 msg (by rw [hkn]; exact hfresh)
    have hout : Gossip.handleConnection now st msg =
        some ({ st1 with knownMessages := Gossip.messageID msg :: st1.knownMessages },
          st1.peers.map Gossip.Peer.id, calls) := by
      unfold Gossip.handleConnection
      rw [hps]
      show some ((Gossip.broadcastMessage st1 msg).1,
        (Gossip.broadcastMessage st1 msg).2, calls) = _
      rw [hbm]
    rw [hout] at h
    have h2 := Option.some.inj h
    rw [← h2]
    show pid ∈ st1.peers.map Gossip.Peer.id
    have hmono := Gossip.processState_peer_ids now _ msg _ hps1 pid
    apply hmono
    show pid ∈ (Gossip.touchPeer st.peers msg.sender now).map Gossip.Peer.id
    rw [Gossip.touchPeer_ids]
    exact hpid

/-- C7 witness: the amended statement applied to the two-peer table and the
frame from A: B (and likewise A) is among the relay targets. -/
theorem relay_sends_to_all_table_peers_apply :
    "B" ∈ (Inputs.stTwoPeersRelayed, (["A", "B"] : List String),
      ([] : List Gossip.Message)).2.1 :=
  relay_sends_to_all_table_peers 9 Inputs.stTwoPeers Inputs.mFromA
    (Inputs.stTwoPeersRelayed, ["A", "B"], [])
    (by rfl) (by decide) "B" (by decide)

/-! ## Claim C8: idempotence of broadcast -/

namespace Gossip

/-- Helper: broadcasting from a state that already has the stamped id in
its seen-set (and on which the local processing step succeeds) performs no
network sends. -/
theorem broadcast_after_known (now : Int) (st : State) (msg : Message)
    (hmem : messageID (stampedMessage now msg) ∈ st.knownMessages)
    (hsome : (processState now st (stampedMessage now msg)).isSome) :
    (Broadcast now st msg).map (fun r => r.2.1) = some [] := by
  obtain ⟨st3, hst3⟩ := Option.isSome_iff_exists.mp hsome
  have hpm2 := processMessage_of_processState now st _ st3 hst3
  have hred : Broadcast now st msg =
      (match processMessage now st (stampedMessage now msg) with
        | none => none
        | some (st2, calls) => some (st2, ([] : List String), calls)) := by
    unfold Broadcast
    rw [broadcastMessage_contains st _ hmem]
  rw [hred, hpm2]
  rfl

end Gossip

/-- C8: once `Broadcast` has run for an envelope, running it again (same
time, same envelope) finds the message id in the seen-set and performs no
outbound sends — the pair of calls produces exactly the sends of the first
call. -/
theorem broadcast_idempotent_sends (now : Int) (st : Gossip.State)
    (msg : Gossip.Message) (h : (Gossip.Broadcast now st msg).isSome) :
    ((Gossip.Broadcast now st msg).bind
      (fun out => Gossip.Broadcast now out.1 msg)).map (fun r => r.2.1) =
      some [] := by
  obtain ⟨out, hout⟩ := Option.isSome_iff_exists.mp h
  rw [hout]
  show (Gossip.Broadcast now out.1 msg).map (fun r => r.2.1) = some []
  unfold Gossip.Broadcast at hout
  rcases hpm : Gossip.processMessage now
      (Gossip.broadcastMessage st (Gossip.stampedMessage now msg)).1
      (Gossip.stampedMessage now msg) with _ | ⟨st2, calls⟩
  · rw [hpm] at hout
    simp at hout
  · rw [hpm] at hout
    have h2 := Option.some.inj hout
    obtain ⟨hps1, hcalls⟩ := Gossip.processMessage_elim _ _ _ _ hpm
    have hkn0 := Gossip.processState_known now _ (Gossip.stampedMessage now msg) _ hps1
    have hmem : Gossip.messageID (Gossip.stampedMessage now msg) ∈
        st2.knownMessages := by
      have hk : st2.knownMessages =
          (Gossip.broadcastMessage st (Gossip.stampedMessage now msg)).1.knownMessages :=
        hkn0
      rw [hk]
      exact Gossip.broadcastMessage_known _ _
    have hsome2 : (Gossip.processState now st2 (Gossip.stampedMessage now msg)).isSome :=
      Gossip.processState_again now now _ _ _ hps1
    have hout1 : out.1 = st2 := by
      rw [← h2]
    rw [hout1]
    exact Gossip.broadcast_after_known now st2 msg hmem hsome2

/-- C8 witness: a concrete double broadcast of a `farm_score` envelope from
a one-peer node; the second call sends nothing. -/
theorem broadcast_idempotent_sends_apply :
    ((Gossip.Broadcast 7 Inputs.stOnePeer Inputs.mScore).bind
      (fun out => Gossip.Broadcast 7 out.1 Inputs.mScore)).map (fun r => r.2.1) =
      some [] :=
  broadcast_idempotent_sends 7 Inputs.stOnePeer Inputs.mScore (by rfl)

/-! ## Lemmas relating the score calculator to the spec model -/

namespace P2p

theorem foldl_add_sum (l : List ℝ) (c : ℝ) :
    l.foldl (fun sum r => sum + r) c = c + l.sum := by
  induction l generalizing c with
  | nil => simp
  | cons x xs ih =>
    simp only [List.foldl_cons, List.sum_cons, ih]
    ring

theorem foldl_add_map (f : ℝ → ℝ) (l : List ℝ) (c : ℝ) :
    l.foldl (fun s r => s + f r) c = c + (l.map f).sum := by
  induction l generalizing c with
  | nil => simp
  | cons x xs ih =>
    simp only [List.foldl_cons, List.map_cons, List.sum_cons, ih]
    ring

theorem foldl_downside_sum (l : List ℝ) (c : ℝ) :
    l.foldl (fun s r => if r < 0 then s + r ^ 2 else s) c =
      c + ((SpecModel.negatives l).map (fun x => x ^ 2)).sum := by
  induction l generalizing c with
  | nil => simp [SpecModel.negatives]
  | cons x xs ih =>
    by_cases hx : x < 0
    · simp only [List.foldl_cons, if_pos hx, ih]
      simp [SpecModel.negatives, List.filter_cons, hx]
      ring
    · simp only [List.foldl_cons, if_neg hx, ih]
      simp [SpecModel.negatives, List.filter_cons, hx]

theorem foldl_downside_count (l : List ℝ) (k : ℕ) :
    l.foldl (fun c r => if r < 0 then c + 1 else c) k =
      k + (SpecModel.negatives l).length := by
  induction l generalizing k with
  | nil => simp [SpecModel.negatives]
  | cons x xs ih =>
    by_cases hx : x < 0
    · simp only [List.foldl_cons, if_pos hx, ih]
      simp [SpecModel.negatives, List.filter_cons, hx]
      omega
    · simp only [List.foldl_cons, if_neg hx, ih]
      simp [SpecModel.negatives, List.filter_cons, hx]

theorem foldl_downside_sum_zero (l : List ℝ) :
    l.foldl (fun s r => if r < 0 then s + r ^ 2 else s) (0 : ℝ) =
      ((SpecModel.negatives l).map (fun x => x ^ 2)).sum := by
  rw [foldl_downside_sum]
  ring

theorem foldl_downside_count_zero (l : List ℝ) :
    l.foldl (fun c r => if r < 0 then c + 1 else c) (0 : ℕ) =
      (SpecModel.negatives l).length := by
  rw [foldl_downside_count]
  omega

theorem mean_eq (returns : List ℝ) :
    calculateAverageReturn returns = SpecModel.mean returns := by
  unfold calculateAverageReturn SpecModel.mean
  by_cases h : returns.length = 0
  · have hnil : returns = [] := List.length_eq_zero.mp h
    simp [hnil]
  · rw [if_neg h, foldl_add_sum, zero_add]

theorem sharpe_eq (returns : List ℝ) :
    calculateSharpeRatio returns = SpecModel.sharpe returns := by
  simp only [calculateSharpeRatio, SpecModel.sharpe, SpecModel.stdDev]
  by_cases h2 : returns.length < 2
  · rw [if_pos h2, if_pos h2]
  · rw [if_neg h2, if_neg h2]
    have hlen : 1 ≤ returns.length := by omega
    rw [foldl_add_map, zero_add, Nat.cast_sub hlen, Nat.cast_one,
      mean_eq, sub_zero]

theorem sortino_eq (returns : List ℝ) :
    calculateSortinoRatio returns = SpecModel.sortino returns := by
  simp only [calculateSortinoRatio, SpecModel.sortino, SpecModel.downside]
  by_cases h2 : returns.length < 2
  · rw [if_pos h2, if_pos h2]
  · rw [if_neg h2, if_neg h2]
    rw [foldl_downside_sum_zero, foldl_downside_count_zero, mean_eq, sub_zero]
    by_cases hk : (SpecModel.negatives returns).length = 0
    · rw [if_pos hk, if_pos hk]
      ring
    · rw [if_neg hk, if_neg hk]

theorem drawdown_fold_eq (cs : List ℝ) :
    ∀ peak m : ℝ, 0 ≤ m →
      cs.foldl drawdownStep (peak, m) =
        cs.foldl SpecModel.specDrawdownStep (peak, m) := by
  induction cs with
  | nil => intro peak m hm; rfl
  | cons v rest ih =>
    intro peak m hm
    simp only [List.foldl_cons]
    by_cases hv : v > peak
    · have hstep : drawdownStep (peak, m) v = (v, m) := by
        simp [drawdownStep, hv]
      have hspec : SpecModel.specDrawdownStep (peak, m) v = (v, m) := by
        simp only [SpecModel.specDrawdownStep]
        rw [max_eq_right (le_of_lt hv)]
        rw [sub_self, zero_div, max_eq_left hm]
      rw [hstep, hspec]
      exact ih v m hm
    · have hmax : max peak v = peak := max_eq_left (not_lt.mp hv)
      have hstep : drawdownStep (peak, m) v =
          (peak, max m ((peak - v) / peak)) := by
        simp only [drawdownStep, if_neg hv]
        by_cases hd : (peak - v) / peak > m
        · rw [if_pos hd, max_eq_right (le_of_lt hd)]
        · rw [if_neg hd, max_eq_left (not_lt.mp hd)]
      have hspec : SpecModel.specDrawdownStep (peak, m) v =
          (peak, max m ((peak - v) / peak)) := by
        simp only [SpecModel.specDrawdownStep]
        rw [hmax]
      rw [hstep, hspec]
      exact ih peak _ (le_trans hm (le_max_left _ _))

theorem drawdown_eq (returns : List ℝ) :
    calculateMaximumDrawdown returns = SpecModel.maxDrawdown returns := by
  unfold calculateMaximumDrawdown SpecModel.maxDrawdown
  by_cases h2 : returns.length < 2
  · rw [if_pos h2, if_pos h2]
  · rw [if_neg h2, if_neg h2]
    rcases hcs : cumulativeReturns returns with _ | ⟨c0, rest⟩
    · rfl
    · show (List.foldl drawdownStep (c0, 0) (c0 :: rest)).2 =
        (List.foldl SpecModel.specDrawdownStep (c0, 0) (c0 :: rest)).2
      rw [drawdown_fold_eq (c0 :: rest) c0 0 (le_refl 0)]

theorem mathRound_eq (x : ℝ) :
    mathRound x = ((SpecModel.roundHalfAway x : ℤ) : ℝ) := by
  unfold mathRound SpecModel.roundHalfAway
  by_cases h : 0 ≤ x
  · rw [if_pos h, if_pos h]
  · rw [if_neg h, if_neg h]

end P2p

/-! ## Claim C2: the calculator formula and its rounding rule -/

/-- C2 (amended): for every returns series the calculator output equals the
spec formula 0.4·T + 0.4·S + 0.2·D + 2·μ rounded to six digits with
round-half-AWAY-FROM-ZERO (`math.Round`), not round-half-to-even. -/
theorem calculateFarmScore_spec_half_away (returns : List ℝ) :
    P2p.CalculateFarmScore returns = SpecModel.scoreRoundedAway returns := by
  unfold P2p.CalculateFarmScore SpecModel.scoreRoundedAway
  by_cases h0 : returns.length = 0
  · rw [if_pos h0, if_pos h0]
  · rw [if_neg h0, if_neg h0]
    rw [P2p.sharpe_eq, P2p.sortino_eq, P2p.drawdown_eq, P2p.mean_eq]
    show P2p.mathRound ((0.4 * SpecModel.sortino returns +
        0.4 * SpecModel.sharpe returns + 0.2 * SpecModel.maxDrawdown returns +
        2 * SpecModel.mean returns) * 1000000) / 1000000 =
      ((SpecModel.roundHalfAway (SpecModel.score returns * 1000000) : ℤ) : ℝ) / 1000000
    rw [P2p.mathRound_eq]
    rfl

/-- C2 counterexample: on the one-element series [0.00000025] the raw score
is 2·μ = 0.0000005, whose scaled value is exactly 1/2; the code
(`math.Round`, half away from zero) returns 0.000001 while the claimed
round-half-to-even rule returns 0 — so the claimed equality fails. -/
theorem calculateFarmScore_not_half_even :
    P2p.CalculateFarmScore [1/4000000] = 1/1000000 ∧
    SpecModel.scoreRoundedEven [1/4000000] = 0 ∧
    P2p.CalculateFarmScore [1/4000000] ≠ SpecModel.scoreRoundedEven [1/4000000] := by
  have hsh : P2p.calculateSharpeRatio [(1 : ℝ)/4000000] = 0 := by
    unfold P2p.calculateSharpeRatio
    rw [if_pos (by norm_num)]
  have hso : P2p.calculateSortinoRatio [(1 : ℝ)/4000000] = 0 := by
    unfold P2p.calculateSortinoRatio
    rw [if_pos (by norm_num)]
  have hdd : P2p.calculateMaximumDrawdown [(1 : ℝ)/4000000] = 0 := by
    unfold P2p.calculateMaximumDrawdown
    rw [if_pos (by norm_num)]
  have havg : P2p.calculateAverageReturn [(1 : ℝ)/4000000] = 1/4000000 := by
    unfold P2p.calculateAverageReturn
    rw [if_neg (by norm_num)]
    norm_num
  have hfloor : ⌊(1 : ℝ)/2⌋ = 0 := by
    rw [Int.floor_eq_zero_iff]
    constructor <;> norm_num
  have hA : P2p.CalculateFarmScore [1/4000000] = 1/1000000 := by
    unfold P2p.CalculateFarmScore
    rw [if_neg (by norm_num), hsh, hso, hdd, havg]
    show P2p.mathRound ((0.4 * 0 + 0.4 * 0 + 0.2 * 0 + 2 * ((1 : ℝ)/4000000)) *
      1000000) / 1000000 = 1/1000000
    rw [show (0.4 * 0 + 0.4 * 0 + 0.2 * 0 + 2 * ((1 : ℝ)/4000000)) * 1000000 =
      1/2 by norm_num]
    unfold P2p.mathRound
    rw [if_pos (by norm_num : (0 : ℝ) ≤ 1/2)]
    rw [show (1 : ℝ)/2 + 1/2 = 1 by norm_num, Int.floor_one]
    norm_num
  have hmean : SpecModel.mean [(1 : ℝ)/4000000] = 1/4000000 := by
    unfold SpecModel.mean
    norm_num
  have hscore : SpecModel.score [(1 : ℝ)/4000000] = 1/2000000 := by
    unfold SpecModel.score SpecModel.sharpe SpecModel.sortino SpecModel.maxDrawdown
    rw [hmean]
    norm_num
  have hfract : Int.fract ((1 : ℝ)/2) = 1/2 := by
    rw [Int.fract, hfloor]
    norm_num
  have hB : SpecModel.scoreRoundedEven [1/4000000] = 0 := by
    unfold SpecModel.scoreRoundedEven
    rw [if_neg (by norm_num), hscore]
    rw [show (1 : ℝ)/2000000 * 1000000 = 1/2 by norm_num]
    unfold SpecModel.roundHalfEven
    rw [if_pos hfract, if_pos (by rw [hfloor]; exact even_zero), hfloor]
    norm_num
  refine ⟨hA, hB, ?_⟩
  rw [hA, hB]
  norm_num
